import Mathlib

/-!
Verification of the pedis repository: the in-memory sorted-set index
(src/structures/sset_lsa.hh) and the sstable read path
(src/store/table/table.cc).

Keys and byte strings are modelled as `List Nat` (byte sequences), scores
(C++ `double`) as `ℚ` with exact arithmetic, and the intrusive
dictionary/list pair of `sset_lsa` as a pair of entry lists sharing entry
values.  All functions are executable and translated clause by clause from
the source.
-/

set_option maxRecDepth 4000

/-- Bytewise comparison from `sset_entry::compare::compare_impl`
(sset_lsa.hh:81-89): memcmp over the common prefix; on a tie the shorter
string is smaller.  This is exactly lexicographic order on byte lists, and
also models the bytewise comparator used by the store layer. -/
def compare_impl : List Nat → List Nat → Bool
  | [], [] => false
  | [], _ :: _ => true
  | _ :: _, [] => false
  | a :: as, b :: bs =>
    if a < b then true
    else if b < a then false
    else compare_impl as bs

/-- A sorted-set member from `sset_entry` (sset_lsa.hh:49-127): key bytes and
score.  The precomputed hash and the two intrusive hooks carry no logical
content and are omitted. -/
structure sset_entry where
  key : List Nat
  score : ℚ
deriving DecidableEq

/-- State of `sset_lsa` (sset_lsa.hh:130-523): the by-key intrusive set
`_dict` (listed in key order) and the score-ordered intrusive list `_list`.
Both lists hold the same entry values when the structure is consistent; the
two fields are tracked separately because the code updates them separately. -/
structure sset_lsa where
  dict : List sset_entry
  list : List sset_entry
deriving DecidableEq

/-- The dictionary lookup `_dict.find(key, sset_entry::compare())`: the first
entry whose key is comparator-equivalent to `key` (for a total lexicographic
order, equivalence is equality of the byte lists). -/
def dict_find (d : List sset_entry) (k : List Nat) : Option sset_entry :=
  d.find? (fun e => e.key == k)

/-- Ordered insertion into the by-key set, used to model the success branch of
`boost::intrusive::set::insert`: the entry goes in front of the first
strictly greater key. -/
def dict_insert_sorted (e : sset_entry) : List sset_entry → List sset_entry
  | [] => [e]
  | x :: xs => if compare_impl e.key x.key then e :: x :: xs else x :: dict_insert_sorted e xs

/-- The unique-key insert `_dict.insert(*e)` of a boost intrusive set: fails
(returning the unchanged set and `false`) when an entry with the same key is
already present, otherwise links the entry and returns `true`. -/
def dict_insert (e : sset_entry) (d : List sset_entry) : List sset_entry × Bool :=
  if (dict_find d e.key).isSome then (d, false) else (dict_insert_sorted e d, true)

/-- Replacement of the score of the first entry holding key `k`, modelling
`it->update_score(nscore)` performed through a dictionary iterator
(sset_lsa.hh:124-126): the node keeps its key and position in the set. -/
def dict_replace : List sset_entry → List Nat → ℚ → List sset_entry
  | [], _, _ => []
  | x :: xs, k, sc => if x.key == k then ⟨x.key, sc⟩ :: xs else x :: dict_replace xs k sc

/-- Removal of the first occurrence of the entry value `e`, modelling
`erase` of the node returned by `s_iterator_to(*e)`. -/
def erase_first (e : sset_entry) : List sset_entry → List sset_entry
  | [] => []
  | x :: xs => if x = e then xs else x :: erase_first e xs

/-- The scan of the for loop inside `sset_lsa::insert_ordered`
(sset_lsa.hh:497-503): walk the list and place `e` immediately before the
first element whose score is strictly greater; `none` when the loop reaches
the end of the list without inserting. -/
def insert_scan (e : sset_entry) : List sset_entry → Option (List sset_entry)
  | [] => none
  | x :: xs =>
    if x.score > e.score then some (e :: x :: xs)
    else (insert_scan e xs).map (fun r => x :: r)

/-- `sset_lsa::insert_ordered` (sset_lsa.hh:486-515).  Empty list or a score
below the head: push front.  Otherwise scan for the first strictly greater
score; when the scan reaches the end, `trace` holds the last element and the
code pushes front when `trace->score() > score` (a dead branch, since the
scan saw no greater score) and otherwise pushes back.  The trailing
`return false` of the source is unreachable because the for loop always
leaves `it == _list.end()`. -/
def insert_ordered (e : sset_entry) (l : List sset_entry) : List sset_entry × Bool :=
  match l with
  | [] => ([e], true)
  | x :: xs =>
    if e.score < x.score then (e :: x :: xs, true)
    else
      match insert_scan e (x :: xs) with
      | some r => (r, true)
      | none =>
        if ((x :: xs).getLast (List.cons_ne_nil x xs)).score > e.score then
          (e :: x :: xs, true)
        else ((x :: xs) ++ [e], true)

/-- `sset_lsa::insert` (sset_lsa.hh:156-164): link into the score list first,
then into the dictionary; the returned flag is the dictionary insert result.
When the dictionary insert fails the entry nevertheless stays linked in the
score list, exactly as in the source. -/
def sset_lsa.insert (e : sset_entry) (s : sset_lsa) : sset_lsa × Bool :=
  let p := insert_ordered e s.list
  if p.2 then
    let q := dict_insert e s.dict
    (⟨q.1, p.1⟩, q.2)
  else (s, false)

/-- `sset_lsa::insert_if_not_exists` (sset_lsa.hh:166-183): for each member
whose key is absent, construct an entry and insert it, counting successes. -/
def insert_if_not_exists : List (List Nat × ℚ) → sset_lsa → sset_lsa × Nat
  | [], s => (s, 0)
  | m :: ms, s =>
    if (dict_find s.dict m.1).isSome then insert_if_not_exists ms s
    else
      let p := sset_lsa.insert ⟨m.1, m.2⟩ s
      let r := insert_if_not_exists ms p.1
      (r.1, r.2 + if p.2 then 1 else 0)

/-- `sset_lsa::update_if_only_exists` (sset_lsa.hh:185-203): for each member
whose key is present, detach the node from the score list, update its score
through the dictionary iterator, re-insert it in score order, and count the
re-insertions that report success. -/
def update_if_only_exists : List (List Nat × ℚ) → sset_lsa → sset_lsa × Nat
  | [], s => (s, 0)
  | m :: ms, s =>
    match dict_find s.dict m.1 with
    | some e =>
      let l1 := erase_first e s.list
      let d1 := dict_replace s.dict e.key m.2
      let p := insert_ordered ⟨e.key, m.2⟩ l1
      let r := update_if_only_exists ms ⟨d1, p.1⟩
      (r.1, r.2 + if p.2 then 1 else 0)
    | none => update_if_only_exists ms s

/-- The single-key `sset_lsa::insert_or_update` (sset_lsa.hh:205-219), the
increment primitive: when the key exists, the new score is the delta plus the
old score and the node is detached from the list and re-inserted in order
(`update`, sset_lsa.hh:517-522); otherwise a fresh entry carrying the delta
is inserted.  Returns the resulting score. -/
def insert_or_update (key : List Nat) (delta : ℚ) (s : sset_lsa) : sset_lsa × ℚ :=
  match dict_find s.dict key with
  | some e =>
    let result := delta + e.score
    let d1 := dict_replace s.dict e.key result
    let l1 := (insert_ordered ⟨e.key, result⟩ (erase_first e s.list)).1
    (⟨d1, l1⟩, result)
  | none =>
    ((sset_lsa.insert ⟨key, delta⟩ s).1, delta)

/-- The map form of `sset_lsa::insert_or_update` (sset_lsa.hh:221-242), the
upsert: present keys get their score replaced and the node re-ordered, absent
keys are inserted; both count on success. -/
def insert_or_update_all : List (List Nat × ℚ) → sset_lsa → sset_lsa × Nat
  | [], s => (s, 0)
  | m :: ms, s =>
    match dict_find s.dict m.1 with
    | some e =>
      let l1 := erase_first e s.list
      let d1 := dict_replace s.dict e.key m.2
      let p := insert_ordered ⟨e.key, m.2⟩ l1
      let r := insert_or_update_all ms ⟨d1, p.1⟩
      (r.1, r.2 + if p.2 then 1 else 0)
    | none =>
      let p := sset_lsa.insert ⟨m.1, m.2⟩ s
      let r := insert_or_update_all ms p.1
      (r.1, r.2 + if p.2 then 1 else 0)

/-- The loop body of `sset_lsa::erase(std::vector<const sset_entry*>&)`
(sset_lsa.hh:362-371): every listed entry is unlinked from the dictionary and
from the score list unconditionally. -/
def erase_entries_loop : List sset_entry → sset_lsa → sset_lsa
  | [], s => s
  | e :: es, s => erase_entries_loop es ⟨erase_first e s.dict, erase_first e s.list⟩

/-- `sset_lsa::erase` over entry pointers (sset_lsa.hh:362-371): runs the
unlink loop and then returns `entries.size()`, the length of the input
vector, regardless of the state. -/
def erase_entries (entries : List sset_entry) (s : sset_lsa) : sset_lsa × Nat :=
  (erase_entries_loop entries s, entries.length)

/-- `sset_lsa::erase` over keys (sset_lsa.hh:373-387): remove each key that is
present, counting removals. -/
def erase_keys : List (List Nat) → sset_lsa → sset_lsa × Nat
  | [], s => (s, 0)
  | k :: ks, s =>
    match dict_find s.dict k with
    | some e =>
      let r := erase_keys ks ⟨erase_first e s.dict, erase_first e s.list⟩
      (r.1, r.2 + 1)
    | none => erase_keys ks s

/-- `sset_lsa::score` (sset_lsa.hh:467-474). -/
def sset_lsa.score (key : List Nat) (s : sset_lsa) : Option ℚ :=
  (dict_find s.dict key).map (fun e => e.score)

/-- The while loop `while (end < 0) { end += size; }` of
`sset_lsa::fetch_by_rank` (sset_lsa.hh:251).  The fuel argument bounds the
iteration count; each pass adds `size ≥ 1`, so `e.natAbs` passes always
suffice and the wrapper below supplies exactly that. -/
def norm_end_fuel : Nat → Int → Nat → Int
  | 0, e, _ => e
  | f + 1, e, size => if e < 0 ∧ 0 < size then norm_end_fuel f (e + size) size else e

/-- Wrapper running the end-normalization loop to completion. -/
def norm_end (e : Int) (size : Nat) : Int :=
  norm_end_fuel e.natAbs e size

/-- `sset_lsa::rank_out_of_range` (sset_lsa.hh:481-484). -/
def rank_out_of_range (s : List sset_entry) (b e : Int) : Bool :=
  b > (s.length : Int) || e ≤ 0

/-- The collection loop of `fetch_by_rank` (sset_lsa.hh:263-274): walk the
score list with a running rank, skip ranks below `b`, stop past `e`, and emit
`(key, score)` pairs in between. -/
def fetch_scan : List sset_entry → Int → Int → Int → List (List Nat × ℚ)
  | [], _, _, _ => []
  | x :: xs, rank, b, e =>
    if rank < b then fetch_scan xs (rank + 1) b e
    else if rank > e then []
    else (x.key, x.score) :: fetch_scan xs (rank + 1) b e

/-- `sset_lsa::fetch_by_rank` (sset_lsa.hh:244-275), the rank-range query:
empty list short-circuits; `begin` gets the size added once when negative and
is then clamped up to 0 and down to `size`; `end` gets the size added until
non-negative; `begin > end` and `rank_out_of_range` return empty; otherwise
the scan collects ranks `begin..end`. -/
def fetch_by_rank (s : List sset_entry) (b e : Int) : List (List Nat × ℚ) :=
  if s.length = 0 then []
  else
    let size : Int := s.length
    let b1 := if b < 0 then b + size else b
    let e1 := norm_end e s.length
    let b2 := if b1 < 0 then 0 else b1
    if b2 > e1 then []
    else
      let b3 := if b2 > size then size else b2
      if rank_out_of_range s b3 e1 then []
      else fetch_scan s 0 b3 e1

/-- The rank-range query as claim C4 words it: negative indices count from
the end, the result is empty when `begin > end` or `begin` is past the last
rank, and otherwise consists of the entries at ranks
`begin .. min(end, size-1)` inclusive. -/
def fetch_by_rank_claim (s : List sset_entry) (b e : Int) : List (List Nat × ℚ) :=
  let size : Int := s.length
  let b1 := if b < 0 then b + size else b
  let e1 := if e < 0 then e + size else e
  if b1 > e1 ∨ b1 ≥ size then []
  else
    (((s.drop b1.toNat).take ((min e1 (size - 1)).toNat + 1 - b1.toNat)).map
      (fun x => (x.key, x.score)))

/-- The rank-range query as amended: identical to the claim after the code's
normalization, except that a normalized `end` of at most 0 also yields the
empty result (the `rank_out_of_range` guard of the source). -/
def fetch_by_rank_amended (s : List sset_entry) (b e : Int) : List (List Nat × ℚ) :=
  if s.length = 0 then []
  else
    let size : Int := s.length
    let b1 := if b < 0 then b + size else b
    let e1 := norm_end e s.length
    let b2 := if b1 < 0 then 0 else b1
    if b2 > e1 ∨ e1 ≤ 0 then []
    else
      (((s.drop b2.toNat).take (e1.toNat + 1 - b2.toNat)).map
        (fun x => (x.key, x.score)))

/-!
The merge layer (src/store/table/table.cc:357-448).  A sub-cursor over one
sstable is modelled logically by its ascending key sequence and a position:
`sstable_reader` delegates `current()` to its data `block_reader`, whose
`_current` keeps the last parsed key when `parse_next_key` fails, so an
exhausted sub-cursor still reports its final key.
-/

/-- A positionable cursor over one sstable, reduced to its key sequence. -/
structure table_cursor where
  keys : List (List Nat)
  pos : Nat
deriving DecidableEq

/-- The key of the current entry; past the end the last parsed key remains
visible (table.cc:229-252: a failing `parse_next_key` leaves `_current`
untouched). -/
def table_cursor.current_key (c : table_cursor) : List Nat :=
  c.keys.getD (min c.pos (c.keys.length - 1)) []

/-- Positioning at the first entry. -/
def table_cursor.seek_to_first (c : table_cursor) : table_cursor :=
  { c with pos := 0 }

/-- Advancing one entry; once exhausted further advances stay at the end. -/
def table_cursor.next (c : table_cursor) : table_cursor :=
  { c with pos := min (c.pos + 1) c.keys.length }

/-- Exhaustion of a sub-cursor. -/
def table_cursor.eof (c : table_cursor) : Bool :=
  decide (c.keys.length ≤ c.pos)

/-- State of `combined_sstables_reader` (table.cc:357-444): the sub-cursors,
the index of the sub-cursor last selected by `find_smallest_one` (the
`_current` pointer), and the `_eof` flag. -/
structure combined_reader where
  subs : List table_cursor
  current : Option Nat
  eofFlag : Bool
deriving DecidableEq

/-- The selection loop of `find_smallest_one` (table.cc:432-437): start from
sub-cursor 0 and replace the candidate whenever a later cursor's current key
is strictly smaller, so the earliest minimal cursor wins.  Exhausted
sub-cursors are not skipped, exactly as in the source. -/
def find_smallest_from : List table_cursor → Nat → Nat × List Nat → Nat
  | [], _, acc => acc.1
  | c :: cs, i, acc =>
    if compare_impl c.current_key acc.2 then find_smallest_from cs (i + 1) (i, c.current_key)
    else find_smallest_from cs (i + 1) acc

/-- `combined_sstables_reader::find_smallest_one` (table.cc:428-443).  With a
non-empty cursor vector `_current` is always assigned a cursor, so the
`_current == nullptr` branch that sets `_eof` fires only for an empty vector
(where the source would read past `_sstables[0]`). -/
def find_smallest_one (r : combined_reader) : combined_reader :=
  match r.subs with
  | [] => { r with current := none, eofFlag := true }
  | c :: cs => { r with current := some (find_smallest_from cs 1 (0, c.current_key)) }

/-- `combined_sstables_reader::seek_to_first` (table.cc:379-385): position
every sub-cursor at its first entry, then select the smallest. -/
def combined_reader.seek_to_first (r : combined_reader) : combined_reader :=
  find_smallest_one { r with subs := r.subs.map table_cursor.seek_to_first }

/-- `combined_sstables_reader::next` (table.cc:403-411): advance only the
sub-cursor equal to `_current`, then select the smallest again. -/
def combined_reader.next (r : combined_reader) : combined_reader :=
  find_smallest_one
    { r with
      subs := r.subs.enum.map (fun p => if r.current = some p.1 then p.2.next else p.2) }

/-- `combined_sstables_reader::eof` (table.cc:413-422), translated verbatim:
when `_eof` is unset the result is `all_eof`, a flag initialized to `false`
and and-folded over the sub-cursors. -/
def combined_reader.eof (r : combined_reader) : Bool :=
  if r.eofFlag then r.eofFlag
  else r.subs.foldl (fun acc c => acc && c.eof) false

/-- The key reported by `current()` (table.cc:424-426), through `_current`. -/
def combined_reader.current_key (r : combined_reader) : Option (List Nat) :=
  r.current.map (fun i => (r.subs.getD i ⟨[], 0⟩).current_key)

/-- The two-table merge scenario of spec section 8: T1 = [a, c, e] and
T2 = [b, d, f], as fresh sub-cursors of a combined reader. -/
def merge_example : combined_reader :=
  ⟨[⟨[[97], [99], [101]], 0⟩, ⟨[[98], [100], [102]], 0⟩], none, false⟩

/-- A combined reader over a single one-key table. -/
def single_example : combined_reader :=
  ⟨[⟨[[97]], 0⟩], none, false⟩

/-!
Opening an sstable (src/store/table/table.cc:64-105).  The operations the
open path performs against the outside world (file size query, the two
`read_exactly` calls, footer decoding, `read_meta`) are abstracted into a
record of their outcomes; the decision structure, the error funnelling and
the cache interaction are translated from the source.
-/

/-- Error taxonomy of the read path (spec section 7). -/
inductive open_error
  | io_error
  | corrupt_format
deriving DecidableEq

/-- An open table, opaque for the purposes of the open path. -/
structure sstable where
  id : Nat
deriving DecidableEq

/-- The per-worker table cache, path to table (table.cc:11-14). -/
abbrev table_cache := List (List Nat × sstable)

/-- Modelled from the spec: `footer::kEncodedLength` lives in
src/store/table/format.hh, which is not part of the sources; the spec fixes
the footer length to two maximal `block_handle` encodings (two varint64 each,
10 bytes per varint) plus an 8-byte magic: 2*20 + 8 = 48. -/
def footer_kEncodedLength : Nat := 48

/-- Outcomes of the environment steps taken by `open_sstable`: the file size,
the byte count delivered by the footer read, and the success of footer
decoding, of the index-block read and of `read_meta`. -/
structure open_file_model where
  size : Nat
  footer_read : Nat
  footer_decodes : Bool
  index_read_ok : Bool
  read_meta_ok : Bool
deriving DecidableEq

/-- `open_sstable` (table.cc:64-105).  A cache hit returns immediately.  A
size below the footer length, a short footer read, a footer decode failure or
a failing block read all raise; every exception of the chain is converted by
the trailing `handle_exception` (table.cc:101-103) into `redis::io_exception`,
so each failure surfaces as `io_error`.  The table is inserted into the table
cache only after `read_meta` completes (table.cc:95-97), so no failing path
touches the cache.  `t` stands for the table instance the success path
constructs. -/
def open_sstable (fname : List Nat) (f : open_file_model) (t : sstable)
    (cache : table_cache) : table_cache × Except open_error sstable :=
  match cache.find? (fun p => p.1 == fname) with
  | some p => (cache, Except.ok p.2)
  | none =>
    if f.size < footer_kEncodedLength then (cache, Except.error open_error.io_error)
    else if f.footer_read ≠ footer_kEncodedLength then (cache, Except.error open_error.io_error)
    else if !f.footer_decodes then (cache, Except.error open_error.io_error)
    else if !f.index_read_ok then (cache, Except.error open_error.io_error)
    else if !f.read_meta_ok then (cache, Except.error open_error.io_error)
    else ((fname, t) :: cache, Except.ok t)

/-!
The block layer (src/store/table/table.cc:134-253).  A block is modelled at
entry granularity: offsets into the block body become entry indices and the
restart-offset array becomes an array of entry indices.  The byte-level entry
encoding (`decode_entry`, `decode_fixed32`) lives in src/store/table/block.hh
and src/store/util/coding.hh, which are not part of the sources; following
the spec (section 6), an entry carries a `shared` prefix length, the
`non_shared` key delta bytes and the value bytes, and a well-formed read of
an entry always yields exactly these three components.
-/

/-- One block entry: `shared` prefix length, key delta and value. -/
structure block_entry where
  shared : Nat
  delta : List Nat
  value : List Nat
deriving DecidableEq

/-- A decoded block: its entry sequence and its restart directory, each
restart being the index of an entry that starts a fresh key. -/
structure block where
  entries : List block_entry
  restarts : List Nat
deriving DecidableEq

/-- Key reconstruction along an entry chain (spec section 3): each key is the
first `shared` bytes of the previous key followed by the delta bytes. -/
def recon_keys (prev : List Nat) : List block_entry → List (List Nat)
  | [] => []
  | e :: es => (prev.take e.shared ++ e.delta) :: recon_keys (prev.take e.shared ++ e.delta) es

/-- The logical key sequence of a block. -/
def block.keys (b : block) : List (List Nat) :=
  recon_keys [] b.entries

/-- State of `block_reader` (table.cc:134-157): the offset of the entry last
parsed (`_current_offset`), the offset the next parse starts from (derived
from `_value_view`), the reconstructed current key, `_restart_index` and the
`_eof` flag, all at entry granularity. -/
structure block_cursor where
  cur : Nat
  nextPos : Nat
  key : List Nat
  restartIndex : Nat
  eofFlag : Bool
deriving DecidableEq

/-- The restart-index catch-up loop at the end of `parse_next_key`
(table.cc:247-249), run with fuel `|restarts|`, which bounds its trip count
since the index strictly increases and stays below `|restarts|`. -/
def advance_ri_fuel (b : block) : Nat → Nat → Nat → Nat
  | 0, ri, _ => ri
  | f + 1, ri, cur =>
    if ri + 1 < b.restarts.length ∧ b.restarts.getD (ri + 1) 0 < cur then
      advance_ri_fuel b f (ri + 1) cur
    else ri

/-- Wrapper running the restart-index catch-up loop to completion. -/
def advance_ri (b : block) (ri cur : Nat) : Nat :=
  advance_ri_fuel b b.restarts.length ri cur

/-- `block_reader::parse_next_key` (table.cc:229-252).  Past the last entry:
record the end offset and give up.  A `shared` exceeding the current key is a
decode failure that leaves the position where it was.  Otherwise reconstruct
the key, step the position, and catch the restart index up. -/
def parse_next_key (b : block) (st : block_cursor) : block_cursor × Bool :=
  let cur := st.nextPos
  if b.entries.length ≤ cur then
    ({ st with cur := b.entries.length, restartIndex := b.restarts.length }, false)
  else
    let e := b.entries.getD cur ⟨0, [], []⟩
    if st.key.length < e.shared then
      ({ st with cur := cur }, false)
    else
      ({ cur := cur, nextPos := cur + 1, key := st.key.take e.shared ++ e.delta,
         restartIndex := advance_ri b st.restartIndex cur, eofFlag := st.eofFlag }, true)

/-- `block_reader::seek_to_restart_point` (table.cc:222-227): clear the key,
record the restart index and aim the next parse at the restart's entry. -/
def seek_to_restart_point (b : block) (i : Nat) (st : block_cursor) : block_cursor :=
  { st with key := [], restartIndex := i, nextPos := b.restarts.getD i 0 }

/-- `block_reader::eof` (table.cc:209-211). -/
def block_eof (b : block) (st : block_cursor) : Bool :=
  decide (b.entries.length ≤ st.cur) || st.eofFlag

/-- The binary search of `block_reader::seek` (table.cc:171-189), with fuel:
each pass shrinks `right - left` by at least one, so `|restarts|` passes
always suffice for the initial gap `|restarts| - 1`.  A restart pointing past
the entries (a failing `decode_entry`) or a restart entry with a non-zero
`shared` aborts the search (`none`, the `_eof = true` path).  A probe key
below the target moves `left` up to `mid`, otherwise `right` drops to
`mid - 1`. -/
def seek_bin_fuel (b : block) (target : List Nat) : Nat → Nat → Nat → Option Nat
  | 0, left, _ => some left
  | f + 1, left, right =>
    if left < right then
      if b.entries.length ≤ b.restarts.getD ((left + right + 1) / 2) 0 then none
      else if (b.entries.getD (b.restarts.getD ((left + right + 1) / 2) 0)
          ⟨0, [], []⟩).shared ≠ 0 then none
      else if compare_impl
          (b.entries.getD (b.restarts.getD ((left + right + 1) / 2) 0) ⟨0, [], []⟩).delta
          target then
        seek_bin_fuel b target f ((left + right + 1) / 2) right
      else seek_bin_fuel b target f left ((left + right + 1) / 2 - 1)
    else some left

/-- The restart-point binary search run to completion over the whole
directory. -/
def seek_bin (b : block) (target : List Nat) : Option Nat :=
  seek_bin_fuel b target b.restarts.length 0 (b.restarts.length - 1)

/-- The linear scan of `block_reader::seek` (table.cc:192-199): parse entries
until one fails to parse or the current key reaches the target.  Fuel bounds
the trip count; `|entries| + 1` always suffices because every successful
parse advances the position. -/
def seek_loop (b : block) (target : List Nat) : Nat → block_cursor → block_cursor
  | 0, st => st
  | f + 1, st =>
    let r := parse_next_key b st
    if r.2 then
      if compare_impl r.1.key target then seek_loop b target f r.1
      else r.1
    else r.1

/-- `block_reader::seek` (table.cc:170-200): binary-search the restart
directory, position at the chosen restart, then scan linearly for the first
key at or above the target. -/
def block_cursor.seek (b : block) (target : List Nat) (st : block_cursor) : block_cursor :=
  match seek_bin b target with
  | none => { st with eofFlag := true }
  | some left => seek_loop b target (b.entries.length + 1) (seek_to_restart_point b left st)

/-- Well-formedness of a block (spec sections 3 and 8): a non-empty restart
directory starting at entry 0 and strictly increasing, restarts in range
(except for the empty block, whose directory is the single restart 0),
restart entries carrying `shared = 0`, every `shared` bounded by the previous
reconstructed key, and reconstructed keys in ascending comparator order. -/
structure block_wf (b : block) : Prop where
  restarts_ne : b.restarts ≠ []
  restarts_head : b.restarts.head? = some 0
  restarts_mono : b.restarts.Pairwise (· < ·)
  restarts_lt : ∀ r ∈ b.restarts, r < b.entries.length ∨ (b.entries.length = 0 ∧ r = 0)
  restarts_shared : ∀ r ∈ b.restarts, (b.entries.getD r ⟨0, [], []⟩).shared = 0
  shared_chain : ∀ i < b.entries.length, i + 1 < b.entries.length →
    (b.entries.getD (i + 1) ⟨0, [], []⟩).shared ≤ (b.keys.getD i []).length
  keys_sorted : b.keys.Pairwise (fun x y => compare_impl y x = false)

/-!
Lemmas and claim theorems.
-/

/-- Specification of the insertion scan: `none` means every scanned score is
at most the new score; a `some` result is the stable before-first-greater
insertion. -/
theorem insert_scan_spec (e : sset_entry) : ∀ l : List sset_entry,
    (insert_scan e l = none → ∀ x ∈ l, x.score ≤ e.score) ∧
    (∀ r, insert_scan e l = some r →
      r = l.takeWhile (fun x => decide (x.score ≤ e.score)) ++
        e :: l.dropWhile (fun x => decide (x.score ≤ e.score))) := by
  intro l
  induction l with
  | nil => simp [insert_scan]
  | cons x xs ih =>
    by_cases hx : x.score > e.score
    · have hpx : (decide (x.score ≤ e.score)) = false := by
        simp [not_le.mpr hx]
      refine ⟨?_, ?_⟩
      · intro h
        rw [insert_scan, if_pos hx] at h
        exact absurd h (by simp)
      · intro r hr
        rw [insert_scan, if_pos hx] at hr
        have hr2 := Option.some.inj hr
        subst hr2
        simp [List.takeWhile_cons, List.dropWhile_cons, hpx]
    · have hle : x.score ≤ e.score := not_lt.mp hx
      have hpx : (decide (x.score ≤ e.score)) = true := by simp [hle]
      cases hxs : insert_scan e xs with
      | none =>
        refine ⟨?_, ?_⟩
        · intro _ y hy
          rcases List.mem_cons.mp hy with rfl | hy
          · exact hle
          · exact (ih.1 hxs) y hy
        · intro r hr
          rw [insert_scan, if_neg hx, hxs] at hr
          exact absurd hr (by simp)
      | some r1 =>
        refine ⟨?_, ?_⟩
        · intro h
          rw [insert_scan, if_neg hx, hxs] at h
          exact absurd h (by simp)
        · intro r hr
          rw [insert_scan, if_neg hx, hxs] at hr
          simp only [Option.map_some', Option.some.injEq] at hr
          subst hr
          rw [ih.2 r1 hxs]
          simp [List.takeWhile_cons, List.dropWhile_cons, hpx]

/-- C7: ordered insertion places the new entry after every element whose
score is at most the new score and before the rest, so on an empty list it
becomes the only element, otherwise it lands immediately before the first
strictly greater score, going after all existing equal scores and preserving
their relative order (the old list reappears as the split around the new
entry). -/
theorem insert_ordered_placement (e : sset_entry) (l : List sset_entry) :
    insert_ordered e l =
      (l.takeWhile (fun x => decide (x.score ≤ e.score)) ++
        e :: l.dropWhile (fun x => decide (x.score ≤ e.score)), true) := by
  match l with
  | [] => simp [insert_ordered]
  | x :: xs =>
    by_cases hx : e.score < x.score
    · have hpx : (decide (x.score ≤ e.score)) = false := by
        simp [not_le.mpr hx]
      simp [insert_ordered, hx, List.takeWhile_cons, List.dropWhile_cons, hpx]
    · cases hscan : insert_scan e (x :: xs) with
      | some r =>
        simp only [insert_ordered, if_neg hx, hscan]
        rw [(insert_scan_spec e (x :: xs)).2 r hscan]
      | none =>
        have hall := (insert_scan_spec e (x :: xs)).1 hscan
        have hlast : ((x :: xs).getLast (List.cons_ne_nil x xs)).score ≤ e.score :=
          hall _ (List.getLast_mem (List.cons_ne_nil x xs))
        have htake : (x :: xs).takeWhile (fun x => decide (x.score ≤ e.score)) = x :: xs :=
          List.takeWhile_eq_self_iff.mpr (by intro a ha; simpa using hall a ha)
        have hdrop : (x :: xs).dropWhile (fun x => decide (x.score ≤ e.score)) = [] :=
          List.dropWhile_eq_nil_iff.mpr (by intro a ha; simpa using hall a ha)
        simp only [insert_ordered, if_neg hx, hscan, if_neg (not_lt.mpr hlast)]
        simp [htake, hdrop]

/-- The ordered-insertion routine reports success on every input: the final
`return false` of the source is dead code. -/
theorem insert_ordered_snd (e : sset_entry) (l : List sset_entry) :
    (insert_ordered e l).2 = true := by
  match l with
  | [] => rfl
  | x :: xs =>
    by_cases hx : e.score < x.score
    · simp [insert_ordered, hx]
    · cases hscan : insert_scan e (x :: xs) with
      | some r => simp [insert_ordered, hx, hscan]
      | none =>
        simp only [insert_ordered, if_neg hx, hscan]
        split <;> rfl

/-- Replacing the score of the entry found for key `k` leaves it findable
under `k`, now carrying the new score. -/
theorem dict_find_replace (d : List sset_entry) (k : List Nat) (e : sset_entry) (v : ℚ)
    (h : dict_find d k = some e) :
    dict_find (dict_replace d e.key v) k = some ⟨e.key, v⟩ := by
  induction d with
  | nil => simp [dict_find] at h
  | cons x xs ih =>
    by_cases hx : (x.key == k) = true
    · have hex : e = x := by
        rw [dict_find, List.find?_cons, hx] at h
        exact (Option.some.inj h).symm
      subst hex
      simp [dict_replace, dict_find, List.find?_cons, hx]
    · have hx' : (x.key == k) = false := by
        simpa using hx
      rw [dict_find, List.find?_cons, hx'] at h
      have hek : e.key = k := by
        simpa using List.find?_some h
      have hxe : (x.key == e.key) = false := by
        rw [hek]
        exact hx'
      rw [dict_replace, if_neg (by simp at hxe ⊢; exact hxe), dict_find, List.find?_cons, hx']
      exact ih h

/-- A key absent from the dictionary is findable after a sorted insert, with
exactly the inserted entry. -/
theorem dict_find_insert_sorted (d : List sset_entry) (k : List Nat) (v : ℚ)
    (h : ∀ e ∈ d, e.key ≠ k) :
    dict_find (dict_insert_sorted ⟨k, v⟩ d) k = some ⟨k, v⟩ := by
  induction d with
  | nil => simp [dict_insert_sorted, dict_find]
  | cons x xs ih =>
    have hx : (x.key == k) = false := by
      simpa using h x (List.mem_cons_self x xs)
    by_cases hc : compare_impl k x.key
    · simp [dict_insert_sorted, hc, dict_find, List.find?_cons]
    · rw [dict_insert_sorted]
      simp only [if_neg hc]
      rw [dict_find, List.find?_cons, hx]
      exact ih (fun e he => h e (List.mem_cons_of_mem x he))

/-- C3 (code bug): inserting an entry whose key is already a member links the
entry into the score list before the dictionary insert fails, so on the
one-member state holding key "a" the post-state has a two-element score list
but a one-element dictionary, violating the claimed invariant that every
mutation keeps the two containers in agreement. -/
theorem sset_insert_duplicate_code_bug :
    (sset_lsa.insert ⟨[97], 2⟩ ⟨[⟨[97], 1⟩], [⟨[97], 1⟩]⟩).1.list.length = 2 ∧
    (sset_lsa.insert ⟨[97], 2⟩ ⟨[⟨[97], 1⟩], [⟨[97], 1⟩]⟩).1.dict.length = 1 ∧
    (sset_lsa.insert ⟨[97], 2⟩ ⟨[⟨[97], 1⟩], [⟨[97], 1⟩]⟩).2 = false := by
  decide

/-- C5: the increment operation returns the old score plus the delta for a
present key and the bare delta for an absent one, the stored score afterwards
equals the returned value, and on the literal scenario inserting ("x", 1)
returns true, incrementing by 5/2 returns 7/2 and the stored score is 7/2. -/
theorem insert_or_update_increment_correct :
    (∀ (s : sset_lsa) (key : List Nat) (delta : ℚ),
      (insert_or_update key delta s).2 =
        (match sset_lsa.score key s with
         | some old => old + delta
         | none => delta) ∧
      sset_lsa.score key (insert_or_update key delta s).1 =
        some (insert_or_update key delta s).2) ∧
    ((sset_lsa.insert ⟨[120], 1⟩ ⟨[], []⟩).2 = true ∧
     (insert_or_update [120] (5 / 2 : ℚ) (sset_lsa.insert ⟨[120], 1⟩ ⟨[], []⟩).1).2 = 7 / 2 ∧
     sset_lsa.score [120] (insert_or_update [120] (5 / 2 : ℚ)
       (sset_lsa.insert ⟨[120], 1⟩ ⟨[], []⟩).1).1 = some (7 / 2)) := by
  constructor
  · intro s key delta
    cases hfind : dict_find s.dict key with
    | some e =>
      refine ⟨by simp [insert_or_update, hfind, sset_lsa.score, add_comm], ?_⟩
      simp only [insert_or_update, hfind, sset_lsa.score]
      rw [dict_find_replace s.dict key e (delta + e.score) hfind]
      simp
    | none =>
      refine ⟨by simp [insert_or_update, hfind, sset_lsa.score], ?_⟩
      simp only [insert_or_update, hfind, sset_lsa.score, sset_lsa.insert]
      rw [insert_ordered_snd]
      simp only [if_true]
      have habs : ∀ e ∈ s.dict, e.key ≠ key := by
        intro e he
        have := List.find?_eq_none.mp hfind e he
        simpa using this
      have hins := dict_find_insert_sorted s.dict key delta habs
      rw [dict_find] at hfind hins
      simp only [dict_insert, dict_find, hfind, Option.isSome_none, Bool.false_eq_true,
        if_false, hins]
      simp
  · have h75 : (5 / 2 + (1 : ℚ)) = 7 / 2 := by norm_num
    refine ⟨rfl, ?_, ?_⟩
    · show (5 / 2 + (1 : ℚ)) = 7 / 2
      exact h75
    · show some (5 / 2 + (1 : ℚ)) = some (7 / 2)
      rw [h75]

/-- Replacing a score never changes which keys the dictionary can find:
the replaced node keeps its key. -/
theorem dict_find_isSome_replace (d : List sset_entry) (k0 k : List Nat) (v : ℚ) :
    (dict_find (dict_replace d k0 v) k).isSome = (dict_find d k).isSome := by
  induction d with
  | nil => rfl
  | cons x xs ih =>
    by_cases hx : (x.key == k0) = true
    · cases hpk : (x.key == k) <;>
        simp [dict_replace, hx, dict_find, List.find?_cons, hpk]
    · have hx' : (x.key == k0) = false := by simpa using hx
      cases hpk : (x.key == k) with
      | true => simp [dict_replace, hx', dict_find, List.find?_cons, hpk]
      | false =>
        simp only [dict_replace, hx', Bool.false_eq_true, if_false]
        rw [dict_find, List.find?_cons, hpk, dict_find, List.find?_cons, hpk]
        exact ih

/-- C9: the bulk score update returns exactly the number of input members
whose key is present in the index at call time; a present member always
counts, whatever its old or new score, because the re-insertion into the
score list reports success unconditionally. -/
theorem update_if_only_exists_count :
    ∀ (members : List (List Nat × ℚ)) (s : sset_lsa),
      (update_if_only_exists members s).2 =
        (members.filter (fun m => (dict_find s.dict m.1).isSome)).length := by
  intro members
  induction members with
  | nil => intro s; rfl
  | cons m ms ih =>
    intro s
    cases hfind : dict_find s.dict m.1 with
    | none =>
      simp only [update_if_only_exists, hfind]
      rw [ih s, List.filter_cons_of_neg (by simp [hfind])]
    | some e =>
      simp only [update_if_only_exists, hfind]
      rw [insert_ordered_snd, if_pos rfl, List.filter_cons_of_pos (by simp [hfind]),
        List.length_cons, ih]
      congr 1
      refine congrArg List.length (List.filter_congr ?_)
      intro m' _
      show (dict_find (dict_replace s.dict e.key m.2) m'.1).isSome =
        (dict_find s.dict m'.1).isSome
      rw [dict_find_isSome_replace]

/-- C10: erasing a vector of entry pointers returns the length of the input
vector whatever the prior state, and unlinks each listed entry value from
both the dictionary view and the score list view in input order. -/
theorem erase_entries_count :
    ∀ (entries : List sset_entry) (s : sset_lsa),
      (erase_entries entries s).2 = entries.length ∧
      (erase_entries entries s).1.dict =
        entries.foldl (fun d e => erase_first e d) s.dict ∧
      (erase_entries entries s).1.list =
        entries.foldl (fun l e => erase_first e l) s.list := by
  intro entries
  induction entries with
  | nil => intro s; exact ⟨rfl, rfl, rfl⟩
  | cons e es ih =>
    intro s
    refine ⟨rfl, ?_, ?_⟩
    · simpa [erase_entries, erase_entries_loop] using
        (ih ⟨erase_first e s.dict, erase_first e s.list⟩).2.1
    · simpa [erase_entries, erase_entries_loop] using
        (ih ⟨erase_first e s.dict, erase_first e s.list⟩).2.2

/-- Collection phase of the rank scan: once the running rank has reached the
lower bound, the scan takes entries up to the upper bound. -/
theorem fetch_scan_ge (s : List sset_entry) :
    ∀ (rank b e : Int), b ≤ rank →
      fetch_scan s rank b e =
        (s.take (e - rank + 1).toNat).map (fun x => (x.key, x.score)) := by
  induction s with
  | nil => intro rank b e h; simp [fetch_scan]
  | cons x xs ih =>
    intro rank b e h
    by_cases he : rank > e
    · have h0 : (e - rank + 1).toNat = 0 := by omega
      simp [fetch_scan, not_lt.mpr h, he, h0]
    · have h1 : ¬ (rank < b) := not_lt.mpr h
      rw [show fetch_scan (x :: xs) rank b e =
            if rank < b then fetch_scan xs (rank + 1) b e
            else if rank > e then []
            else (x.key, x.score) :: fetch_scan xs (rank + 1) b e from rfl]
      simp only [if_neg h1, if_neg he]
      rw [ih (rank + 1) b e (by omega)]
      have h2 : (e - rank + 1).toNat = (e - (rank + 1) + 1).toNat + 1 := by omega
      rw [h2, List.take_succ_cons, List.map_cons]

/-- Skip phase of the rank scan: below the lower bound the scan drops
entries, landing in the collection phase. -/
theorem fetch_scan_skip (s : List sset_entry) :
    ∀ (rank b e : Int), rank ≤ b →
      fetch_scan s rank b e =
        ((s.drop (b - rank).toNat).take (e - b + 1).toNat).map (fun x => (x.key, x.score)) := by
  induction s with
  | nil => intro rank b e h; simp [fetch_scan]
  | cons x xs ih =>
    intro rank b e h
    by_cases hlt : rank < b
    · rw [show fetch_scan (x :: xs) rank b e =
            if rank < b then fetch_scan xs (rank + 1) b e
            else if rank > e then []
            else (x.key, x.score) :: fetch_scan xs (rank + 1) b e from rfl]
      rw [if_pos hlt, ih (rank + 1) b e (by omega)]
      have hd : (b - rank).toNat = (b - (rank + 1)).toNat + 1 := by omega
      rw [hd, List.drop_succ_cons]
    · have hrb : rank = b := le_antisymm h (not_lt.mp hlt)
      subst hrb
      rw [fetch_scan_ge (x :: xs) rank rank e le_rfl]
      simp

/-- The common core of `fetch_by_rank` and its amended description, after the
begin and end indices have been normalized: the guarded scan equals the
guarded drop-and-take slice, with the extra empty case exactly when the
normalized end is at most zero. -/
theorem fetch_core (s : List sset_entry) (b2 e1 : Int) (hb2 : 0 ≤ b2) :
    (if b2 > e1 then ([] : List (List Nat × ℚ))
     else
       if rank_out_of_range s (if b2 > (s.length : Int) then (s.length : Int) else b2) e1 then []
       else fetch_scan s 0 (if b2 > (s.length : Int) then (s.length : Int) else b2) e1) =
    (if b2 > e1 ∨ e1 ≤ 0 then []
     else ((s.drop b2.toNat).take (e1.toNat + 1 - b2.toNat)).map (fun x => (x.key, x.score))) := by
  by_cases hbe : b2 > e1
  · simp [hbe]
  · rw [if_neg hbe]
    by_cases he0 : e1 ≤ 0
    · have hro : rank_out_of_range s
          (if b2 > (s.length : Int) then (s.length : Int) else b2) e1 = true := by
        simp [rank_out_of_range, he0]
      simp [hro, he0]
    · rw [if_neg (show ¬ (b2 > e1 ∨ e1 ≤ 0) by push_neg; omega)]
      by_cases hbs : b2 > (s.length : Int)
      · rw [if_pos hbs]
        have hro : rank_out_of_range s (s.length : Int) e1 = false := by
          simp only [rank_out_of_range, Bool.or_eq_false_iff, decide_eq_false_iff_not,
            not_lt, not_le]
          omega
        rw [if_neg (show ¬ (rank_out_of_range s (s.length : Int) e1 = true) by simp [hro])]
        rw [fetch_scan_skip s 0 (s.length : Int) e1 (by omega)]
        have h1 : ((s.length : Int) - 0).toNat = s.length := by omega
        have h2 : s.length ≤ b2.toNat := by omega
        rw [h1, List.drop_length, List.drop_eq_nil_of_le h2]
        simp
      · rw [if_neg hbs]
        have hro : rank_out_of_range s b2 e1 = false := by
          simp only [rank_out_of_range, Bool.or_eq_false_iff, decide_eq_false_iff_not,
            not_lt, not_le]
          omega
        rw [if_neg (show ¬ (rank_out_of_range s b2 e1 = true) by simp [hro])]
        rw [fetch_scan_skip s 0 b2 e1 hb2]
        have h1 : (b2 - 0).toNat = b2.toNat := by omega
        have h2 : (e1 - b2 + 1).toNat = e1.toNat + 1 - b2.toNat := by omega
        rw [h1, h2]

/-- C4 (counterexample): on the one-member set holding ("a", 1) the code's
`fetch_by_rank(0, 0)` returns the empty list, while the claimed description
returns the entry at rank 0; the `end <= 0` disjunct of `rank_out_of_range`
rejects every range whose normalized end is 0. -/
theorem fetch_by_rank_claim_counterexample :
    fetch_by_rank [⟨[97], 1⟩] 0 0 = [] ∧
    fetch_by_rank_claim [⟨[97], 1⟩] 0 0 = [([97], 1)] ∧
    fetch_by_rank [⟨[97], 1⟩] 0 0 ≠ fetch_by_rank_claim [⟨[97], 1⟩] 0 0 := by
  refine ⟨rfl, rfl, by decide⟩

/-- C4 (amended): `fetch_by_rank` equals the claimed normalize-then-slice
description with one extra empty case, a normalized end of at most zero; in
all other cases the result is exactly the entries at ranks
`begin .. min(end, size-1)` in list order, obtained here as a drop-then-take
slice of the score list. -/
theorem fetch_by_rank_amended_correct :
    ∀ (s : List sset_entry) (b e : Int),
      fetch_by_rank s b e = fetch_by_rank_amended s b e := by
  intro s b e
  unfold fetch_by_rank fetch_by_rank_amended
  by_cases hnil : s.length = 0
  · rw [if_pos hnil, if_pos hnil]
  · rw [if_neg hnil, if_neg hnil]
    exact fetch_core s _ _ (by split_ifs <;> omega)

/-- C1 (code bug): on the spec's own example T1 = [a, c, e], T2 = [b, d, f],
iterating the combined cursor yields a, b, c, d, e and then e again instead
of f: `find_smallest_one` compares exhausted sub-cursors by their stale final
key instead of skipping them, and `eof` stays false even after six
advancements, so the iteration never reaches the claimed a..f-then-eof
shape. -/
theorem combined_reader_merge_code_bug :
    (merge_example.seek_to_first).current_key = some [97] ∧
    (combined_reader.next^[1] merge_example.seek_to_first).current_key = some [98] ∧
    (combined_reader.next^[2] merge_example.seek_to_first).current_key = some [99] ∧
    (combined_reader.next^[3] merge_example.seek_to_first).current_key = some [100] ∧
    (combined_reader.next^[4] merge_example.seek_to_first).current_key = some [101] ∧
    (combined_reader.next^[5] merge_example.seek_to_first).current_key = some [101] ∧
    (combined_reader.next^[5] merge_example.seek_to_first).current_key ≠ some [102] ∧
    (combined_reader.next^[6] merge_example.seek_to_first).eof = false := by
  decide

/-- C2 (code bug): after a combined cursor over the single table [a] is
positioned and advanced once, every sub-cursor is exhausted, yet `eof`
returns false: the source initializes `all_eof` to false and and-folds it, so
the fold can never produce true and `eof` does not agree with "all
sub-cursors exhausted". -/
theorem combined_reader_eof_code_bug :
    (combined_reader.next single_example.seek_to_first).subs.all table_cursor.eof = true ∧
    (combined_reader.next single_example.seek_to_first).eof = false := by
  decide

/-- C6 (counterexample): opening a fresh file of footer_length - 1 bytes
fails, but the failure surfaces as `io_error`, not as the claimed
`corrupt_format`: the open path funnels every exception of its chain through
`handle_exception`, which rethrows `redis::io_exception`. -/
theorem open_sstable_corrupt_format_counterexample :
    (open_sstable [102] ⟨footer_kEncodedLength - 1, 0, false, false, false⟩ ⟨0⟩ []).2 =
      Except.error open_error.io_error ∧
    (open_sstable [102] ⟨footer_kEncodedLength - 1, 0, false, false, false⟩ ⟨0⟩ []).2 ≠
      Except.error open_error.corrupt_format := by
  refine ⟨rfl, ?_⟩
  intro h
  exact absurd (Except.error.inj (rfl.trans h)) (by decide)

/-- C6 (amended): for a file name missing from the table cache, a size below
the footer length makes `open_sstable` fail with `io_error`, and every
failing `open_sstable` leaves the table cache exactly as it was: the cache
insertion happens only after `read_meta` succeeds. -/
theorem open_sstable_short_file_fails (fname : List Nat) (f : open_file_model) (t : sstable)
    (cache : table_cache)
    (hmiss : cache.find? (fun p => p.1 == fname) = none) :
    (f.size < footer_kEncodedLength →
      (open_sstable fname f t cache).2 = Except.error open_error.io_error) ∧
    (∀ err, (open_sstable fname f t cache).2 = Except.error err →
      (open_sstable fname f t cache).1 = cache) := by
  constructor
  · intro hsize
    simp [open_sstable, hmiss, hsize]
  · intro err herr
    unfold open_sstable at herr ⊢
    rw [hmiss] at herr ⊢
    split_ifs at herr ⊢ <;> simp_all

/-- Witness for the amended C6 theorem at a concrete 47-byte file and the
empty cache. -/
theorem open_sstable_short_file_fails_witness :
    (open_sstable [102] ⟨47, 0, false, false, false⟩ ⟨0⟩ []).2 =
      Except.error open_error.io_error ∧
    (open_sstable [102] ⟨47, 0, false, false, false⟩ ⟨0⟩ []).1 = [] := by
  have h := open_sstable_short_file_fails [102] ⟨47, 0, false, false, false⟩ ⟨0⟩ [] rfl
  exact ⟨h.1 (by decide), h.2 open_error.io_error (h.1 (by decide))⟩

/-- Transitivity across the bytewise order: anything at most `b` is below
anything `b` is below. -/
theorem compare_le_lt_trans : ∀ (a b c : List Nat),
    compare_impl b a = false → compare_impl b c = true → compare_impl a c = true := by
  intro a
  induction a with
  | nil =>
    intro b c h1 h2
    cases c with
    | nil =>
      cases b <;> simp [compare_impl] at h2
    | cons z zs => cases b <;> rfl
  | cons x xs ih =>
    intro b c h1 h2
    cases b with
    | nil => simp [compare_impl] at h1
    | cons y ys =>
      cases c with
      | nil => simp [compare_impl] at h2
      | cons z zs =>
        rw [compare_impl] at h1 h2 ⊢
        rcases Nat.lt_trichotomy y x with hyx | rfl | hxy
        · rw [if_pos hyx] at h1
          exact Bool.noConfusion h1
        · rw [if_neg (lt_irrefl y), if_neg (lt_irrefl y)] at h1
          rcases Nat.lt_trichotomy y z with hyz | rfl | hzy
          · rw [if_pos hyz]
          · rw [if_neg (lt_irrefl y), if_neg (lt_irrefl y)] at h2 ⊢
            exact ih ys zs h1 h2
          · rw [if_neg (by omega : ¬ y < z), if_pos hzy] at h2
            exact Bool.noConfusion h2
        · rcases Nat.lt_trichotomy y z with hyz | rfl | hzy
          · rw [if_pos (by omega : x < z)]
          · rw [if_pos hxy]
          · rw [if_neg (by omega : ¬ y < z), if_pos hzy] at h2
            exact Bool.noConfusion h2

/-- Reconstruction yields one key per entry. -/
theorem recon_keys_length : ∀ (es : List block_entry) (p : List Nat),
    (recon_keys p es).length = es.length := by
  intro es
  induction es with
  | nil => intro p; rfl
  | cons e es ih => intro p; simp [recon_keys, ih]

/-- A block has one logical key per entry. -/
theorem block_keys_length (b : block) : b.keys.length = b.entries.length :=
  recon_keys_length b.entries []

/-- The chain step of key reconstruction: each key is the shared prefix of
its predecessor followed by its delta. -/
theorem recon_keys_chain : ∀ (es : List block_entry) (p0 : List Nat) (i : Nat),
    i + 1 < es.length →
    ((recon_keys p0 es).getD i []).take ((es.getD (i + 1) ⟨0, [], []⟩).shared) ++
        (es.getD (i + 1) ⟨0, [], []⟩).delta =
      (recon_keys p0 es).getD (i + 1) [] := by
  intro es
  induction es with
  | nil => intro p0 i h; simp at h
  | cons e es ih =>
    intro p0 i h
    cases i with
    | zero =>
      cases es with
      | nil => simp at h
      | cons e1 es1 => simp [recon_keys]
    | succ j =>
      have hj : j + 1 < es.length := by simpa using h
      simpa [recon_keys] using ih (p0.take e.shared ++ e.delta) j hj

/-- An entry with a zero shared count contributes its delta as the full
key, whatever precedes it. -/
theorem recon_keys_shared_zero : ∀ (es : List block_entry) (p0 : List Nat) (i : Nat),
    i < es.length → (es.getD i ⟨0, [], []⟩).shared = 0 →
    (recon_keys p0 es).getD i [] = (es.getD i ⟨0, [], []⟩).delta := by
  intro es
  induction es with
  | nil => intro p0 i h; simp at h
  | cons e es ih =>
    intro p0 i h hz
    cases i with
    | zero =>
      simp only [List.getD_cons_zero] at hz ⊢
      simp [recon_keys, hz]
    | succ j =>
      have hj : j < es.length := by simpa using h
      simpa [recon_keys] using ih (p0.take e.shared ++ e.delta) j hj (by simpa using hz)

/-- Parsing past the last entry records the end position and fails. -/
theorem parse_next_key_limit (b : block) (st : block_cursor)
    (h : b.entries.length ≤ st.nextPos) :
    parse_next_key b st =
      ({ st with cur := b.entries.length, restartIndex := b.restarts.length }, false) := by
  simp [parse_next_key, h]

/-- Parsing an in-range entry whose shared count fits the current key
reconstructs the next key and advances. -/
theorem parse_next_key_ok (b : block) (st : block_cursor)
    (h : st.nextPos < b.entries.length)
    (hsh : (b.entries.getD st.nextPos ⟨0, [], []⟩).shared ≤ st.key.length) :
    parse_next_key b st =
      ({ cur := st.nextPos, nextPos := st.nextPos + 1,
         key := st.key.take (b.entries.getD st.nextPos ⟨0, [], []⟩).shared ++
           (b.entries.getD st.nextPos ⟨0, [], []⟩).delta,
         restartIndex := advance_ri b st.restartIndex st.nextPos,
         eofFlag := st.eofFlag }, true) := by
  rw [parse_next_key]
  rw [if_neg (by omega)]
  rw [if_neg (by omega)]

/-- The linear scan of `seek`, specified against the logical key sequence:
started at position `p` with a key buffer compatible with the entry chain, it
stops at the first position at or after `p` whose key is at or above the
target (reporting that position and key), and runs off the end when there is
none. -/
theorem seek_loop_spec (b : block) (target : List Nat) (hwf : block_wf b) :
    ∀ (fuel : Nat) (st : block_cursor) (p : Nat),
      st.nextPos = p → p ≤ b.entries.length →
      b.entries.length + 1 - p ≤ fuel →
      (p < b.entries.length →
        st.key.take ((b.entries.getD p ⟨0, [], []⟩).shared) ++
            (b.entries.getD p ⟨0, [], []⟩).delta = b.keys.getD p [] ∧
        (b.entries.getD p ⟨0, [], []⟩).shared ≤ st.key.length) →
      ((∀ j, (b.keys.drop p).findIdx? (fun k => !compare_impl k target) = some j →
          (seek_loop b target fuel st).cur = p + j ∧
          (seek_loop b target fuel st).key = b.keys.getD (p + j) [] ∧
          (seek_loop b target fuel st).eofFlag = st.eofFlag ∧
          p + j < b.entries.length) ∧
        ((b.keys.drop p).findIdx? (fun k => !compare_impl k target) = none →
          (seek_loop b target fuel st).cur = b.entries.length ∧
          (seek_loop b target fuel st).eofFlag = st.eofFlag)) := by
  intro fuel
  induction fuel with
  | zero =>
    intro st p hp hpn hfuel hkey
    exact absurd hfuel (by omega)
  | succ f ihf =>
    intro st p hp hpn hfuel hkey
    subst hp
    by_cases hpend : st.nextPos < b.entries.length
    · have hkey' := hkey hpend
      have hparse := parse_next_key_ok b st hpend hkey'.2
      set st1 : block_cursor :=
        { cur := st.nextPos, nextPos := st.nextPos + 1,
          key := st.key.take (b.entries.getD st.nextPos ⟨0, [], []⟩).shared ++
            (b.entries.getD st.nextPos ⟨0, [], []⟩).delta,
          restartIndex := advance_ri b st.restartIndex st.nextPos,
          eofFlag := st.eofFlag } with hst1
      have hkey1 : st1.key = b.keys.getD st.nextPos [] := hkey'.1
      have hloop : seek_loop b target (f + 1) st =
          if compare_impl st1.key target then seek_loop b target f st1 else st1 := by
        rw [seek_loop, hparse]
        rfl
      have hklt : st.nextPos < b.keys.length := by
        rw [block_keys_length]; exact hpend
      have hdrop : b.keys.drop st.nextPos =
          b.keys.getD st.nextPos [] :: b.keys.drop (st.nextPos + 1) := by
        rw [List.drop_eq_getElem_cons hklt, List.getD_eq_getElem _ _ hklt]
      by_cases hcmp : compare_impl st1.key target = true
      · -- current key still below the target: the loop advances
        have hnotpred :
            ¬ ((fun k => !compare_impl k target) (b.keys.getD st.nextPos []) = true) := by
          intro hco
          have hco2 : (!compare_impl (b.keys.getD st.nextPos []) target) = true := hco
          rw [← hkey1, hcmp] at hco2
          exact Bool.noConfusion hco2
        have hfind : (b.keys.drop st.nextPos).findIdx? (fun k => !compare_impl k target) =
            ((b.keys.drop (st.nextPos + 1)).findIdx?
              (fun k => !compare_impl k target)).map (fun i => i + 1) := by
          rw [hdrop, List.findIdx?_cons, if_neg hnotpred, List.findIdx?_succ]
        have hrec := ihf st1 (st.nextPos + 1) rfl (by omega) (by omega) ?keycond
        case keycond =>
          intro h1
          constructor
          · rw [hkey1]
            exact recon_keys_chain b.entries [] st.nextPos h1
          · rw [hkey1]
            have := hwf.shared_chain st.nextPos hpend h1
            exact this
        rw [hloop, if_pos hcmp]
        constructor
        · intro j hj
          rw [hfind] at hj
          cases hx : (b.keys.drop (st.nextPos + 1)).findIdx? (fun k => !compare_impl k target) with
          | none => rw [hx] at hj; exact absurd hj (by simp)
          | some j' =>
            rw [hx] at hj
            simp only [Option.map_some', Option.some.injEq] at hj
            subst hj
            obtain ⟨hc1, hc2, hc3, hc4⟩ := hrec.1 j' hx
            refine ⟨by omega, ?_, hc3, by omega⟩
            rw [show st.nextPos + (j' + 1) = st.nextPos + 1 + j' by omega]
            exact hc2
        · intro hnone
          rw [hfind] at hnone
          cases hx : (b.keys.drop (st.nextPos + 1)).findIdx? (fun k => !compare_impl k target) with
          | some j' => rw [hx] at hnone; exact absurd hnone (by simp)
          | none => exact hrec.2 hx
      · -- current key reaches the target: the loop stops here
        have hcmpf : compare_impl st1.key target = false := by
          cases hb : compare_impl st1.key target
          · rfl
          · exact absurd hb hcmp
        have hpredt : ((fun k => !compare_impl k target) (b.keys.getD st.nextPos []) = true) := by
          show (!compare_impl (b.keys.getD st.nextPos []) target) = true
          rw [← hkey1, hcmpf]
          rfl
        have hfind : (b.keys.drop st.nextPos).findIdx? (fun k => !compare_impl k target) =
            some 0 := by
          rw [hdrop, List.findIdx?_cons, if_pos hpredt]
        rw [hloop, if_neg hcmp]
        constructor
        · intro j hj
          rw [hfind] at hj
          simp only [Option.some.injEq] at hj
          subst hj
          refine ⟨?_, ?_, ?_, by omega⟩
          · rw [hst1]
            rfl
          · rw [Nat.add_zero]
            exact hkey1
          · rw [hst1]
        · intro hnone
          rw [hfind] at hnone
          exact absurd hnone (by simp)
    · -- past the last entry: the parse fails and the cursor records the end
      have hloop : seek_loop b target (f + 1) st =
          { st with cur := b.entries.length, restartIndex := b.restarts.length } := by
        rw [seek_loop, parse_next_key_limit b st (by omega)]
        rfl
      have hdrop : b.keys.drop st.nextPos = [] :=
        List.drop_eq_nil_of_le (by rw [block_keys_length]; omega)
      constructor
      · intro j hj
        rw [hdrop] at hj
        exact absurd hj (by simp)
      · intro _
        rw [hloop]
        exact ⟨rfl, rfl⟩

/-- The restart-point binary search, specified on a non-empty well-formed
block: it always lands on some restart index no greater than `right`, and its
answer is either restart 0 or a restart whose first key is strictly below the
target. -/
theorem seek_bin_fuel_spec (b : block) (target : List Nat) (hwf : block_wf b)
    (hn0 : 0 < b.entries.length) :
    ∀ (fuel left right : Nat),
      right + 1 - left ≤ fuel → left ≤ right → right < b.restarts.length →
      (left = 0 ∨ compare_impl (b.keys.getD (b.restarts.getD left 0) []) target = true) →
      ∃ l, seek_bin_fuel b target fuel left right = some l ∧ l ≤ right ∧
        (l = 0 ∨ compare_impl (b.keys.getD (b.restarts.getD l 0) []) target = true) := by
  intro fuel
  induction fuel with
  | zero =>
    intro left right hfuel hlr hrn hinv
    exact absurd hfuel (by omega)
  | succ f ihf =>
    intro left right hfuel hlr hrn hinv
    by_cases hltr : left < right
    · have hmidn : (left + right + 1) / 2 < b.restarts.length := by omega
      have hroffmem : b.restarts.getD ((left + right + 1) / 2) 0 ∈ b.restarts := by
        rw [List.getD_eq_getElem _ _ hmidn]
        exact List.getElem_mem hmidn
      have hroffn : b.restarts.getD ((left + right + 1) / 2) 0 < b.entries.length := by
        rcases hwf.restarts_lt _ hroffmem with h | h
        · exact h
        · omega
      have hsh := hwf.restarts_shared _ hroffmem
      have hdelta : (b.entries.getD (b.restarts.getD ((left + right + 1) / 2) 0)
          ⟨0, [], []⟩).delta = b.keys.getD (b.restarts.getD ((left + right + 1) / 2) 0) [] :=
        (recon_keys_shared_zero b.entries [] _ hroffn hsh).symm
      rw [seek_bin_fuel, if_pos hltr, if_neg (by omega), if_neg (by omega)]
      by_cases hc : compare_impl (b.entries.getD (b.restarts.getD ((left + right + 1) / 2) 0)
          ⟨0, [], []⟩).delta target = true
      · rw [if_pos hc]
        exact ihf ((left + right + 1) / 2) right (by omega) (by omega) hrn
          (Or.inr (by rw [← hdelta]; exact hc))
      · rw [if_neg hc]
        obtain ⟨l, hfl, hlb, hli⟩ :=
          ihf left ((left + right + 1) / 2 - 1) (by omega) (by omega) (by omega) hinv
        exact ⟨l, hfl, by omega, hli⟩
    · have hleq : left = right := by omega
      rw [seek_bin_fuel, if_neg hltr]
      exact ⟨left, rfl, by omega, hinv⟩

/-- In a sorted key sequence, every key before one that is strictly below
the target is itself strictly below the target. -/
theorem keys_prefix_lt (b : block) (target : List Nat) (hwf : block_wf b) (q : Nat)
    (hq : q < b.keys.length)
    (hqlt : compare_impl (b.keys.getD q []) target = true) :
    ∀ j, j < q → compare_impl (b.keys.getD j []) target = true := by
  intro j hj
  have hjq : j < b.keys.length := by omega
  have hple := List.pairwise_iff_getElem.mp hwf.keys_sorted j q hjq hq hj
  have hple2 : compare_impl (b.keys.getD q []) (b.keys.getD j []) = false := by
    rw [List.getD_eq_getElem _ _ hq, List.getD_eq_getElem _ _ hjq]
    exact hple
  exact compare_le_lt_trans _ _ _ hple2 hqlt

/-- When no position before `p` satisfies the search predicate, the first
match of the whole list is the first match of the suffix from `p`, shifted
by `p`. -/
theorem findIdx_drop_shift (pred : List Nat → Bool) :
    ∀ (p : Nat) (l : List (List Nat)),
      (∀ j, j < p → j < l.length → pred (l.getD j []) = false) →
      l.findIdx? pred = ((l.drop p).findIdx? pred).map (fun j => p + j) := by
  intro p
  induction p with
  | zero =>
    intro l h
    rw [List.drop_zero]
    cases hx : l.findIdx? pred <;> simp
  | succ q ih =>
    intro l h
    cases l with
    | nil => simp
    | cons a l2 =>
      have ha : pred a = false := h 0 (Nat.succ_pos q) (by simp)
      rw [List.findIdx?_cons, if_neg (by simp [ha]), List.findIdx?_succ]
      rw [ih l2 (fun j hj hjl => by simpa using h (j + 1) (by omega) (by simpa using hjl))]
      rw [show (a :: l2).drop (q + 1) = l2.drop q from rfl]
      cases hx : (l2.drop q).findIdx? pred with
      | none => simp
      | some j2 =>
        simp only [Option.map_some', Option.some.injEq]
        omega

/-- C8: on a well-formed block, `seek(target)` leaves the cursor positioned
on the first entry in block order whose key is at or above the target — its
offset is that entry's index, its current key is that entry's key and the
cursor is not exhausted — and when no entry's key is at or above the target
the cursor becomes exhausted.  The first such entry index is expressed as the
first index of the logical key sequence not strictly below the target. -/
theorem block_seek_correct (b : block) (target : List Nat) (st : block_cursor)
    (hwf : block_wf b) (hflag : st.eofFlag = false) :
    (∀ i, b.keys.findIdx? (fun k => !compare_impl k target) = some i →
      (block_cursor.seek b target st).cur = i ∧
      (block_cursor.seek b target st).key = b.keys.getD i [] ∧
      block_eof b (block_cursor.seek b target st) = false) ∧
    (b.keys.findIdx? (fun k => !compare_impl k target) = none →
      block_eof b (block_cursor.seek b target st) = true) := by
  by_cases hn0 : 0 < b.entries.length
  · have hnumR : 0 < b.restarts.length := List.length_pos.mpr hwf.restarts_ne
    obtain ⟨l, hbin, hlb, hinv⟩ := seek_bin_fuel_spec b target hwf hn0 b.restarts.length 0
      (b.restarts.length - 1) (by omega) (by omega) (by omega) (Or.inl rfl)
    have hseek : block_cursor.seek b target st =
        seek_loop b target (b.entries.length + 1) (seek_to_restart_point b l st) := by
      rw [block_cursor.seek, seek_bin, hbin]
    have hpmem : b.restarts.getD l 0 ∈ b.restarts := by
      rw [List.getD_eq_getElem _ _ (by omega)]
      exact List.getElem_mem (by omega)
    have hpn : b.restarts.getD l 0 < b.entries.length := by
      rcases hwf.restarts_lt _ hpmem with h | h
      · exact h
      · omega
    have hsh := hwf.restarts_shared _ hpmem
    have hscan := seek_loop_spec b target hwf (b.entries.length + 1)
      (seek_to_restart_point b l st) (b.restarts.getD l 0) rfl (by omega) (by omega)
      (fun _ => by
        constructor
        · show (([] : List Nat).take (b.entries.getD (b.restarts.getD l 0) ⟨0, [], []⟩).shared ++
              (b.entries.getD (b.restarts.getD l 0) ⟨0, [], []⟩).delta) =
            b.keys.getD (b.restarts.getD l 0) []
          rw [hsh]
          simpa using (recon_keys_shared_zero b.entries [] _ hpn hsh).symm
        · show (b.entries.getD (b.restarts.getD l 0) ⟨0, [], []⟩).shared ≤
            (([] : List Nat)).length
          rw [hsh]
          exact Nat.le_refl 0)
    have hpref : ∀ j, j < b.restarts.getD l 0 → j < b.keys.length →
        (fun k => !compare_impl k target) (b.keys.getD j []) = false := by
      intro j hj hjl
      rcases hinv with h0 | hlt
      · exfalso
        have hp0 : b.restarts.getD l 0 = 0 := by
          subst h0
          cases hr : b.restarts with
          | nil => exact absurd hr hwf.restarts_ne
          | cons a rs2 =>
            have hh := hwf.restarts_head
            rw [hr] at hh
            simp only [List.head?_cons, Option.some.injEq] at hh
            simp [hh]
        omega
      · have hck := keys_prefix_lt b target hwf (b.restarts.getD l 0)
          (by rw [block_keys_length]; exact hpn) hlt j hj
        show (!compare_impl (b.keys.getD j []) target) = false
        rw [hck]
        rfl
    have hglobal := findIdx_drop_shift (fun k => !compare_impl k target)
      (b.restarts.getD l 0) b.keys hpref
    have hflag1 : (seek_to_restart_point b l st).eofFlag = false := hflag
    constructor
    · intro i hi
      rw [hglobal] at hi
      cases hx : (b.keys.drop (b.restarts.getD l 0)).findIdx?
          (fun k => !compare_impl k target) with
      | none => rw [hx] at hi; exact absurd hi (by simp)
      | some j =>
        rw [hx] at hi
        simp only [Option.map_some', Option.some.injEq] at hi
        subst hi
        obtain ⟨hc1, hc2, hc3, hc4⟩ := hscan.1 j hx
        rw [hseek]
        refine ⟨hc1, hc2, ?_⟩
        rw [block_eof, hc1, hc3, hflag1]
        simp only [Bool.or_false, decide_eq_false_iff_not, not_le]
        omega
    · intro hnone
      rw [hglobal] at hnone
      cases hx : (b.keys.drop (b.restarts.getD l 0)).findIdx?
          (fun k => !compare_impl k target) with
      | some j => rw [hx] at hnone; exact absurd hnone (by simp)
      | none =>
        obtain ⟨hc1, hc3⟩ := hscan.2 hx
        rw [hseek, block_eof, hc1]
        simp
  · have hes : b.entries = [] := by
      rcases b with ⟨es, rs⟩
      simp only [not_lt, Nat.le_zero] at hn0
      exact List.length_eq_zero.mp hn0
    have hrs : b.restarts = [0] := by
      cases hr : b.restarts with
      | nil => exact absurd hr hwf.restarts_ne
      | cons a rs2 =>
        have hh := hwf.restarts_head
        rw [hr] at hh
        simp only [List.head?_cons, Option.some.injEq] at hh
        subst hh
        cases rs2 with
        | nil => rfl
        | cons c rs3 =>
          exfalso
          have hcm : c ∈ b.restarts := by rw [hr]; simp
          have hc0 : c = 0 := by
            rcases hwf.restarts_lt c hcm with h | h
            · rw [hes] at h; simp at h
            · exact h.2
          have hmono := hwf.restarts_mono
          rw [hr, List.pairwise_cons] at hmono
          have := hmono.1 c (by simp)
          omega
    have hkeys : b.keys = [] := by
      rw [block.keys, hes]
      rfl
    rcases b with ⟨es, rs⟩
    simp only at hes hrs
    subst hes
    subst hrs
    constructor
    · intro i hi
      rw [hkeys] at hi
      exact absurd hi (by simp)
    · intro _
      rfl

/-- Witness for C8 on a concrete two-entry block with keys "a" and "b" and
restarts at both entries: seeking "b" lands on entry 1 with key "b" and the
cursor is not exhausted. -/
theorem block_seek_correct_witness :
    (block_cursor.seek ⟨[⟨0, [97], [49]⟩, ⟨0, [98], [50]⟩], [0, 1]⟩ [98]
      ⟨0, 0, [], 0, false⟩).cur = 1 ∧
    (block_cursor.seek ⟨[⟨0, [97], [49]⟩, ⟨0, [98], [50]⟩], [0, 1]⟩ [98]
      ⟨0, 0, [], 0, false⟩).key = [98] ∧
    block_eof ⟨[⟨0, [97], [49]⟩, ⟨0, [98], [50]⟩], [0, 1]⟩
      (block_cursor.seek ⟨[⟨0, [97], [49]⟩, ⟨0, [98], [50]⟩], [0, 1]⟩ [98]
        ⟨0, 0, [], 0, false⟩) = false := by
  have h := (block_seek_correct ⟨[⟨0, [97], [49]⟩, ⟨0, [98], [50]⟩], [0, 1]⟩ [98]
    ⟨0, 0, [], 0, false⟩
    ⟨by decide, by decide, by decide, by decide, by decide, by decide, by decide⟩ rfl).1 1 rfl
  exact ⟨h.1, by rw [h.2.1]; rfl, h.2.2⟩
